import Mathlib

/-!
Verification of the UTF-16 string-processing core of `boa_engine`
(`src/boa_engine/src/builtins/string/mod.rs`).

Code-unit sequences are modelled as `List Nat` (each element a 16-bit code
unit).  Fallible operations (those returning `JsResult` in the source)
return `Except Unit _`; the abstract error payload is irrelevant to the
properties proved here.  External collaborators (the Unicode case-conversion
and normalization tables of the Rust standard library and the
`unicode-normalization` crate, property lookup on a named-capture object,
`ToString` coercion of captured values, replacement callbacks) are modelled
as function parameters.
-/

namespace BoaString

/-- Code units in the high-surrogate range `0xD800..=0xDBFF`. -/
def isHighSurrogate (u : Nat) : Prop := 0xD800 ≤ u ∧ u ≤ 0xDBFF

/-- Code units in the low-surrogate range `0xDC00..=0xDFFF`. -/
def isLowSurrogate (u : Nat) : Prop := 0xDC00 ≤ u ∧ u ≤ 0xDFFF

/-- Code units in the surrogate range `0xD800..=0xDFFF`. -/
def isSurrogate (u : Nat) : Prop := 0xD800 ≤ u ∧ u ≤ 0xDFFF

/-- Unicode scalar values: code points below `0x110000` outside the
surrogate range (the values a Rust `char` can hold). -/
def isScalarValue (u : Nat) : Prop := u < 0x110000 ∧ ¬ isSurrogate u

instance (u : Nat) : Decidable (isHighSurrogate u) := by unfold isHighSurrogate; infer_instance
instance (u : Nat) : Decidable (isLowSurrogate u) := by unfold isLowSurrogate; infer_instance
instance (u : Nat) : Decidable (isSurrogate u) := by unfold isSurrogate; infer_instance
instance (u : Nat) : Decidable (isScalarValue u) := by unfold isScalarValue; infer_instance

/-- A token of the code-point decoder: either a Unicode scalar value
(`boa`'s `CodePoint::Unicode`, the value of a Rust `char`) or a lone
surrogate code unit (`CodePoint::UnpairedSurrogate`). -/
inductive CodePoint where
  | unicode (c : Nat)
  | unpairedSurrogate (u : Nat)
  deriving DecidableEq, Repr

/-- UTF-16 encoding of one scalar value, as performed by
`char::encode_utf16`: BMP scalars become a single unit, supplementary
scalars a high/low surrogate pair. -/
def encodeScalar (c : Nat) : List Nat :=
  if c < 0x10000 then [c]
  else [0xD800 + (c - 0x10000) / 0x400, 0xDC00 + (c - 0x10000) % 0x400]

/-- The source's `CodePoint::encode_utf16`: scalars are UTF-16 encoded,
unpaired surrogates pass through as their own code unit. -/
def CodePoint.encodeUtf16 : CodePoint → List Nat
  | .unicode c => encodeScalar c
  | .unpairedSurrogate u => [u]

/-- UTF-16 encoding of a scalar-value sequence (`str::encode_utf16` of the
Rust string the source builds from a run of `char`s). -/
def encodeScalars (cs : List Nat) : List Nat := cs.flatMap encodeScalar

/-- Re-encoding of a token stream back to code units (each token via
`CodePoint::encode_utf16`). -/
def encodeToks (l : List CodePoint) : List Nat := l.flatMap CodePoint.encodeUtf16

/-- Modelled from the spec: the code-point decoder (`JsString::to_code_points`,
CodePointDecoder of spec section 4.2) is defined in `boa_engine/src/string.rs`,
outside the provided sources.  A high surrogate immediately followed by a low
surrogate combines into one scalar; any other surrogate is emitted unpaired;
all other units are scalars. -/
def to_code_points : List Nat → List CodePoint
  | [] => []
  | u :: rest =>
    if isHighSurrogate u then
      match rest with
      | v :: rest2 =>
        if isLowSurrogate v then
          CodePoint.unicode (0x10000 + (u - 0xD800) * 0x400 + (v - 0xDC00)) ::
            to_code_points rest2
        else
          CodePoint.unpairedSurrogate u :: to_code_points (v :: rest2)
      | [] => [CodePoint.unpairedSurrogate u]
    else if isLowSurrogate u then
      CodePoint.unpairedSurrogate u :: to_code_points rest
    else
      CodePoint.unicode u :: to_code_points rest

/-- Does `needle` occur at the start of `hd` (element-wise code-unit
comparison, `self.get(i..i + search_len) == Some(search_value)` in the
source)? -/
def matchesAt (needle hd : List Nat) : Prop := hd.take needle.length = needle

instance (n hd : List Nat) : Decidable (matchesAt n hd) := by unfold matchesAt; infer_instance

/-- Linear scan used by `index_of`: try positions `i, i+1, ...` for `k`
steps, returning the first position where the needle matches. -/
def indexOfFrom (h n : List Nat) : Nat → Nat → Option Nat
  | 0, _ => none
  | k + 1, i => if matchesAt n (h.drop i) then some i else indexOfFrom h n k (i + 1)

/-- Modelled from the spec: the search engine (`JsString::index_of`,
spec section 4.3) is defined in `boa_engine/src/string.rs`, outside the
provided sources.  Following the `StringIndexOf` algorithm the source
comments cite: an empty needle matches immediately at `from` when
`from ≤ len` (and finds nothing beyond the end, which is what makes the
global-replace scan loop of `replace_all` terminate); otherwise the result
is the leftmost index `≥ from` at which the needle's code units occur
contiguously. -/
def index_of (h n : List Nat) (from_ : Nat) : Option Nat :=
  if n = [] then (if from_ ≤ h.length then some from_ else none)
  else indexOfFrom h n (h.length + 1 - from_) from_

/-! ### Case mapping and normalization (`to_lowercase`, `to_uppercase`, `normalize`)

The three functions share one loop (source lines 1516-1543, 1579-1606 and
1976-2019): repeatedly collect the maximal prefix of scalar tokens from the
code-point iterator, convert that run as a whole with the external Unicode
algorithm, re-encode it to UTF-16, and splice the interrupting unpaired
surrogate back verbatim.  `toRuns` performs the run/surrogate decomposition
of the token stream and `interleave` re-assembles the output; their
composition is exactly the imperative `loop { map_while ... }`. -/

/-- Decompose a token stream into the leading scalar run and the list of
(unpaired surrogate, following scalar run) groups, mirroring how the
source's `map_while` loop consumes the `to_code_points` iterator. -/
def toRuns : List CodePoint → List Nat × List (Nat × List Nat)
  | [] => ([], [])
  | CodePoint.unicode c :: rest =>
    let rp := toRuns rest
    (c :: rp.1, rp.2)
  | CodePoint.unpairedSurrogate u :: rest =>
    let rp := toRuns rest
    ([], (u, rp.1) :: rp.2)

/-- Re-assembly half of the shared loop: convert each scalar run with `f`,
UTF-16 encode it, and emit each unpaired surrogate verbatim between the
converted runs. -/
def interleave (f : List Nat → List Nat) (r : List Nat) (ps : List (Nat × List Nat)) :
    List Nat :=
  encodeScalars (f r) ++ ps.flatMap (fun p => p.1 :: encodeScalars (f p.2))

/-- The shared shape of `to_lowercase`, `to_uppercase` and the normalization
loop of `normalize`: decode, split into maximal scalar runs, convert each
run with the external per-run algorithm `f`, re-encode, and splice unpaired
surrogates back at their original relative positions. -/
def caseMapWith (f : List Nat → List Nat) (s : List Nat) : List Nat :=
  interleave f (toRuns (to_code_points s)).1 (toRuns (to_code_points s)).2

/-- `String.prototype.toLowerCase` (source lines 1505-1548), parameterized
by the external Rust `str::to_lowercase` table `lower`. -/
def to_lowercase (lower : List Nat → List Nat) (s : List Nat) : List Nat :=
  caseMapWith lower s

/-- `String.prototype.toUpperCase` (source lines 1563-1611), parameterized
by the external Rust `str::to_uppercase` table `upper`. -/
def to_uppercase (upper : List Nat → List Nat) (s : List Nat) : List Nat :=
  caseMapWith upper s

/-- The unpaired surrogates of a code-unit sequence, in order. -/
def unpairedOf (s : List Nat) : List Nat :=
  (to_code_points s).filterMap (fun t =>
    match t with
    | CodePoint.unpairedSurrogate u => some u
    | CodePoint.unicode _ => none)

/-- The four normalization forms recognized by `normalize`
(source lines 1940-1946). -/
inductive Normalization where
  | nfc
  | nfd
  | nfkc
  | nfkd
  deriving DecidableEq, Repr

/-- Code units of the recognized form names (`utf16!("NFC")` and friends). -/
def formName : Normalization → List Nat
  | .nfc => [0x4E, 0x46, 0x43]
  | .nfd => [0x4E, 0x46, 0x44]
  | .nfkc => [0x4E, 0x46, 0x4B, 0x43]
  | .nfkd => [0x4E, 0x46, 0x4B, 0x44]

/-- Form-argument handling of `String.prototype.normalize` (source lines
1953-1974): an undefined argument selects NFC, the four recognized names
map to their form, and anything else raises the range error
"The normalization form should be one of NFC, NFD, NFKC, NFKD."
The argument is the already-stringified form value (`ToString` of the
argument is an external coercion); `none` models `undefined`. -/
def parseNormalizationForm (form : Option (List Nat)) : Except Unit Normalization :=
  let f := match form with
    | none => formName .nfc
    | some t => t
  if f = formName .nfc then .ok .nfc
  else if f = formName .nfd then .ok .nfd
  else if f = formName .nfkc then .ok .nfkc
  else if f = formName .nfkd then .ok .nfkd
  else .error ()

/-- `String.prototype.normalize` (source lines 1933-2023), parameterized by
the external per-run normalizers `fs` (the `nfc`/`nfd`/`nfkc`/`nfkd`
iterators of the `unicode-normalization` crate). -/
def normalize (fs : Normalization → List Nat → List Nat) (s : List Nat)
    (form : Option (List Nat)) : Except Unit (List Nat) :=
  match parseNormalizationForm form with
  | .error e => .error e
  | .ok nf => .ok (caseMapWith (fs nf) s)

/-! ### The substitution engine (`get_substitution`, source lines 2080-2259)

Captures are `Option (List Nat)` (`none` models an undefined capture; the
source additionally emits nothing for a non-string capture value, which is
the same behavior).  The named-capture object together with the fallible
`Get` property lookup and `ToString` coercion of the looked-up value is
modelled as `Option (List Nat → Except Unit (Option (List Nat)))`: `none`
is an undefined `namedCaptures`; `some f` is a present object where
`f name` returns `.ok none` when the looked-up capture is undefined,
`.ok (some v)` when it stringifies to `v`, and `.error _` when the lookup
or the coercion fails. -/

/-- Is this token an ASCII decimal digit (`char::is_digit(10)` guarded by
`CodePoint::as_char`)? -/
def isDigitTok (t : CodePoint) : Prop :=
  match t with
  | CodePoint.unicode c => 0x30 ≤ c ∧ c ≤ 0x39
  | CodePoint.unpairedSurrogate _ => False

instance (t : CodePoint) : Decidable (isDigitTok t) := by
  unfold isDigitTok; cases t <;> infer_instance

/-- Numeric value of a digit token (its code unit minus `0x30`). -/
def digitVal (t : CodePoint) : Nat :=
  match t with
  | CodePoint.unicode c => c - 0x30
  | CodePoint.unpairedSurrogate _ => 0

/-- Code unit of a token assumed to lie in the BMP (the `second as u16`
cast of the source, only used on digit characters). -/
def tokUnit (t : CodePoint) : Nat :=
  match t with
  | CodePoint.unicode c => c
  | CodePoint.unpairedSurrogate u => u

/-- The `$<` group-name scan (source lines 2211-2222): consume tokens until
the first `>`, re-encoding each consumed token; returns the scanned name's
code units, whether a `>` was found, and the unconsumed remainder. -/
def scanGroupName : List CodePoint → List Nat × Bool × List CodePoint
  | [] => ([], false, [])
  | t :: rest =>
    if t = CodePoint.unicode 0x3E then ([], true, rest)
    else
      let g := scanGroupName rest
      (t.encodeUtf16 ++ g.1, g.2.1, g.2.2)

/-- The capture text emitted for a `$n`/`$nn` reference that is in range:
`captures.get(n-1)` followed by `as_string` (source lines 2172-2176 and
2192-2196); an absent entry or an undefined capture contributes nothing. -/
def captureText (captures : List (Option (List Nat))) (n : Nat) : List Nat :=
  match captures.get? (n - 1) with
  | some (some s) => s
  | _ => []

/-- The scanning loop of `get_substitution` (source lines 2117-2255) over
the decoded template, with the match context fixed.  Each arm emits its
replacement text and continues on the unconsumed remainder. -/
def substLoop (matched str : List Nat) (position : Nat)
    (captures : List (Option (List Nat)))
    (nc : Option (List Nat → Except Unit (Option (List Nat)))) :
    List CodePoint → Except Unit (List Nat)
  | [] => .ok []
  | first :: chars =>
    if first = CodePoint.unicode 0x24 then
      match chars with
      | [] =>
        -- `second` is `None`: the fallback arm emits a lone `$`.
        Except.map (fun r => 0x24 :: r) (substLoop matched str position captures nc [])
      | second :: chars2 =>
        if second = CodePoint.unicode 0x24 then
          Except.map (fun r => 0x24 :: r) (substLoop matched str position captures nc chars2)
        else if second = CodePoint.unicode 0x26 then
          Except.map (fun r => matched ++ r) (substLoop matched str position captures nc chars2)
        else if second = CodePoint.unicode 0x60 then
          Except.map (fun r => str.take position ++ r)
            (substLoop matched str position captures nc chars2)
        else if second = CodePoint.unicode 0x27 then
          Except.map (fun r =>
              (if position + matched.length < str.length then
                str.drop (position + matched.length)
              else []) ++ r)
            (substLoop matched str position captures nc chars2)
        else if isDigitTok second then
          match chars2 with
          | third :: chars3 =>
            if isDigitTok third then
              -- `$nn`: both digits are consumed.
              let nn := 10 * digitVal second + digitVal third
              Except.map (fun r =>
                  (if nn = 0 ∨ nn > captures.length then
                    [0x24, tokUnit second, tokUnit third]
                  else captureText captures nn) ++ r)
                (substLoop matched str position captures nc chars3)
            else
              -- `$n`: the peeked third token is not consumed.
              let n := digitVal second
              Except.map (fun r =>
                  (if n = 0 ∨ n > captures.length then [0x24, tokUnit second]
                  else captureText captures n) ++ r)
                (substLoop matched str position captures nc (third :: chars3))
          | [] =>
            let n := digitVal second
            Except.map (fun r =>
                (if n = 0 ∨ n > captures.length then [0x24, tokUnit second]
                else captureText captures n) ++ r)
              (substLoop matched str position captures nc [])
        else if second = CodePoint.unicode 0x3C then
          match nc with
          | none =>
            Except.map (fun r => 0x24 :: 0x3C :: r)
              (substLoop matched str position captures nc chars2)
          | some f =>
            have _hsg : (scanGroupName chars2).2.2.length ≤ chars2.length := by
              clear second
              induction chars2 with
              | nil => simp [scanGroupName]
              | cons t rest ih =>
                by_cases h : t = CodePoint.unicode 0x3E
                · simp [scanGroupName, h]
                · simp only [scanGroupName, if_neg h]
                  exact Nat.le_succ_of_le ih
            let sg := scanGroupName chars2
            if sg.2.1 then
              match f sg.1 with
              | .error e => .error e
              | .ok none => substLoop matched str position captures nc sg.2.2
              | .ok (some v) =>
                Except.map (fun r => v ++ r) (substLoop matched str position captures nc sg.2.2)
            else
              Except.map (fun r => 0x24 :: 0x3C :: (sg.1 ++ r))
                (substLoop matched str position captures nc sg.2.2)
        else
          Except.map (fun r => 0x24 :: (second.encodeUtf16 ++ r))
            (substLoop matched str position captures nc chars2)
    else
      Except.map (fun r => first.encodeUtf16 ++ r)
        (substLoop matched str position captures nc chars)
termination_by toks => toks.length
decreasing_by all_goals simp_wf <;> omega

/-- `GetSubstitution` (source lines 2080-2259): scan the decoded
replacement template left to right, expanding `$` escapes against the
match context. -/
def get_substitution (matched str : List Nat) (position : Nat)
    (captures : List (Option (List Nat)))
    (nc : Option (List Nat → Except Unit (Option (List Nat))))
    (replacement : List Nat) : Except Unit (List Nat) :=
  substLoop matched str position captures nc (to_code_points replacement)

/-! ### Invariants of decoded token streams

These predicates are not part of the source; they capture the shape of
every `to_code_points` output and are used to prove the surrogate-
preservation and idempotence properties of the shared case-mapping /
normalization loop. -/

/-- Every element of a run is a Unicode scalar value. -/
def scalarRun (r : List Nat) : Prop := ∀ c ∈ r, isScalarValue c

/-- Invariant of the `(surrogate, following run)` groups produced by
`toRuns` on a decoded stream: each surrogate really is one, each run is
made of scalar values, and two surrogates separated by an empty run are
never a high/low pair (the decoder would have combined them). -/
def okPs : List (Nat × List Nat) → Prop
  | [] => True
  | (u, r) :: rest =>
    isSurrogate u ∧ scalarRun r ∧
      (∀ u' r' rest2, rest = (u', r') :: rest2 → r = [] →
        ¬(isHighSurrogate u ∧ isLowSurrogate u')) ∧
      okPs rest

/-- Invariant of decoded token streams: scalar tokens carry scalar values,
surrogate tokens carry surrogate values, and a surrogate token is never
immediately followed by a surrogate token forming a high/low pair. -/
def okStream : List CodePoint → Prop
  | [] => True
  | CodePoint.unicode c :: rest => isScalarValue c ∧ okStream rest
  | CodePoint.unpairedSurrogate u :: rest =>
    isSurrogate u ∧
      (∀ u' rest2, rest = CodePoint.unpairedSurrogate u' :: rest2 →
        ¬(isHighSurrogate u ∧ isLowSurrogate u')) ∧
      okStream rest

/-- Token stream corresponding to a run/surrogate decomposition (the
inverse image of `toRuns`). -/
def runsToToks (r : List Nat) (ps : List (Nat × List Nat)) : List CodePoint :=
  r.map CodePoint.unicode ++
    ps.flatMap (fun p => CodePoint.unpairedSurrogate p.1 :: p.2.map CodePoint.unicode)

/-- Modelled from the spec: fragment of the platform's Default Case
Conversion (Rust `str::to_uppercase`, an external collaborator) restricted
to ASCII runs, used to instantiate concrete test cases; on the letter `A`
(and any ASCII run) it agrees with the full Unicode table. -/
def asciiUpperRun (xs : List Nat) : List Nat :=
  xs.map (fun c => if 0x61 ≤ c ∧ c ≤ 0x7A then c - 0x20 else c)

/-! ### The replace engine (`replace`, `replace_all`) -/

/-- The slice `s[a..b]` of a code-unit sequence. -/
def sliceCU (s : List Nat) (a b : Nat) : List Nat := (s.take b).drop a

/-- Replacement value of `String.prototype.replace`: a callable (modelled
as the composed external `Call` + `ToString`, receiving the matched text,
the match position and the source string) or a literal template. -/
inductive ReplaceValue where
  | functional (f : List Nat → Nat → List Nat → Except Unit (List Nat))
  | textual (template : List Nat)

/-- Replacement text for one match (source lines 959-983): invoke the
callback and stringify, or expand the template with an empty capture list
and undefined named captures. -/
def computeReplacement (rv : ReplaceValue) (search_str this_str : List Nat)
    (position : Nat) : Except Unit (List Nat) :=
  match rv with
  | .functional f => f search_str position this_str
  | .textual t => get_substitution search_str this_str position [] none t

/-- `String.prototype.replace` with a plain-string pattern (source lines
900-992, steps 3-13): find the first occurrence from offset 0; if none,
return the source unchanged, otherwise splice the computed replacement
between the preserved head and the tail. -/
def replace (this_str search_str : List Nat) (rv : ReplaceValue) :
    Except Unit (List Nat) :=
  match index_of this_str search_str 0 with
  | none => .ok this_str
  | some position =>
    Except.map (fun replacement =>
        this_str.take position ++ replacement ++
          this_str.drop (position + search_str.length))
      (computeReplacement rv search_str this_str position)

/-- The match-position scan of `replace_all` (source lines 1076-1091):
repeatedly search from the previous match position plus
`advance_by = max(1, search_length)`. -/
def matchPositionsFrom (string search : List Nat) (start : Nat) : List Nat :=
  match hp : index_of string search start with
  | none => []
  | some p =>
    have hb : start ≤ p ∧ p ≤ string.length := by
      unfold index_of at hp
      by_cases hs : search = []
      · rw [if_pos hs] at hp
        by_cases hf : start ≤ string.length
        · rw [if_pos hf] at hp
          injection hp with hp2
          omega
        · rw [if_neg hf] at hp
          exact absurd hp (by simp)
      · rw [if_neg hs] at hp
        have key : ∀ k i q, indexOfFrom string search k i = some q →
            i ≤ q ∧ q < i + k := by
          intro k
          induction k with
          | zero => intro i q h; simp [indexOfFrom] at h
          | succ k ih =>
            intro i q h
            by_cases hm : matchesAt search (string.drop i)
            · simp only [indexOfFrom, if_pos hm, Option.some.injEq] at h
              omega
            · simp only [indexOfFrom, if_neg hm] at h
              have hq := ih (i + 1) q h
              omega
        have hq := key _ _ _ hp
        omega
    p :: matchPositionsFrom string search (p + max 1 search.length)
termination_by string.length + 1 - start
decreasing_by
  simp_wf
  have h1 : 1 ≤ max 1 search.length := le_max_left _ _
  omega

/-- All match positions of `replace_all`, starting from offset 0. -/
def matchPositions (string search : List Nat) : List Nat :=
  matchPositionsFrom string search 0

/-- The result of `get_substitution` with undefined named captures,
unwrapped like the source's
`.expect("GetSubstitution should never fail here.")` (source line 1118);
the error branch is unreachable (`substLoop_none_ok` below). -/
def getSubstitutionExpect (matched str : List Nat) (position : Nat)
    (template : List Nat) : List Nat :=
  match get_substitution matched str position [] none template with
  | .ok r => r
  | .error _ => []

/-- The accumulation loop of `replace_all` (source lines 1093-1147):
for each match position emit the preserved gap and the replacement, then
append the tail after the last match. -/
def replaceAllGo (string search template : List Nat) :
    Nat → List Nat → List Nat
  | end_of_last, [] =>
    if end_of_last < string.length then string.drop end_of_last else []
  | end_of_last, p :: ps =>
    sliceCU string end_of_last p ++ getSubstitutionExpect search string p template ++
      replaceAllGo string search template (p + search.length) ps

/-- `String.prototype.replaceAll` with a plain-string pattern and a textual
replacement (source lines 1010-1151, steps 3-16). -/
def replace_all (string search template : List Nat) : List Nat :=
  replaceAllGo string search template 0 (matchPositions string search)

/-! ### The split engine (`split`, source lines 1736-1843) -/

/-- The separator-search loop of `split` (source lines 1804-1836): collect
the gap before each separator occurrence, stop once `lim` pieces exist,
and append the tail after the last occurrence. -/
def splitLoop (s sep : List Nat) (hsep : sep ≠ []) (lim : Nat)
    (acc : List (List Nat)) (i : Nat) : List (List Nat) :=
  match hj : index_of s sep i with
  | none => acc ++ [s.drop i]
  | some j =>
    have hb : i ≤ j ∧ j + sep.length ≤ s.length := by
      unfold index_of at hj
      rw [if_neg hsep] at hj
      have key : ∀ k i2 q, indexOfFrom s sep k i2 = some q →
          i2 ≤ q ∧ matchesAt sep (s.drop q) := by
        intro k
        induction k with
        | zero => intro i2 q h; simp [indexOfFrom] at h
        | succ k ih =>
          intro i2 q h
          by_cases hm : matchesAt sep (s.drop i2)
          · simp only [indexOfFrom, if_pos hm, Option.some.injEq] at h
            subst h
            exact ⟨Nat.le_refl _, hm⟩
          · simp only [indexOfFrom, if_neg hm] at h
            have hq := ih (i2 + 1) q h
            exact ⟨by omega, hq.2⟩
      obtain ⟨h1, h2⟩ := key _ _ _ hj
      refine ⟨h1, ?_⟩
      unfold matchesAt at h2
      have hlen := congrArg List.length h2
      simp [List.length_take, List.length_drop] at hlen
      have hsl : sep.length ≠ 0 := fun h0 => hsep (List.length_eq_zero.mp h0)
      omega
    let acc2 := acc ++ [sliceCU s i j]
    if acc2.length = lim then acc2
    else splitLoop s sep hsep lim acc2 (j + sep.length)
termination_by s.length + 1 - i
decreasing_by
  simp_wf
  have hsl : sep.length ≠ 0 := fun h0 => hsep (List.length_eq_zero.mp h0)
  omega

/-- `String.prototype.split` (source lines 1736-1843, steps 3-17), with
the separator given as its stringified value (`none` models an undefined
separator) and the limit as the coerced `u32`. -/
def split (s : List Nat) (separator : Option (List Nat)) (lim : Nat) :
    List (List Nat) :=
  if lim = 0 then []
  else
    match separator with
    | none => [s]
    | some sep =>
      if hsep : sep = [] then (s.take lim).map (fun u => [u])
      else if s = [] then [[]]
      else splitLoop s sep hsep lim [] 0

/-! ## Search-engine characterization -/

/-- A successful linear scan starts at or after its start index, stays
within its step budget, and really matches. -/
theorem indexOfFrom_some_spec (hay nd : List Nat) :
    ∀ k i p, indexOfFrom hay nd k i = some p →
      i ≤ p ∧ p < i + k ∧ matchesAt nd (hay.drop p) := by
  intro k
  induction k with
  | zero => intro i p hp; simp [indexOfFrom] at hp
  | succ k ih =>
    intro i p hp
    by_cases hm : matchesAt nd (hay.drop i)
    · simp only [indexOfFrom, if_pos hm, Option.some.injEq] at hp
      subst hp
      exact ⟨Nat.le_refl _, by omega, hm⟩
    · simp only [indexOfFrom, if_neg hm] at hp
      obtain ⟨h1, h2, h3⟩ := ih (i + 1) p hp
      exact ⟨by omega, by omega, h3⟩

/-- A found index lies between the start offset and the haystack length. -/
theorem index_of_some_bounds (hay nd : List Nat) (f p : Nat)
    (hp : index_of hay nd f = some p) : f ≤ p ∧ p ≤ hay.length := by
  unfold index_of at hp
  by_cases hnd : nd = []
  · simp only [if_pos hnd] at hp
    by_cases hf : f ≤ hay.length
    · simp only [if_pos hf, Option.some.injEq] at hp
      omega
    · simp [if_neg hf] at hp
  · simp only [if_neg hnd] at hp
    obtain ⟨h1, h2, _⟩ := indexOfFrom_some_spec hay nd _ _ _ hp
    omega

/-- A found index of a non-empty needle leaves room for the whole needle. -/
theorem index_of_some_match (hay nd : List Nat) (f p : Nat) (hnd : nd ≠ [])
    (hp : index_of hay nd f = some p) : matchesAt nd (hay.drop p) := by
  unfold index_of at hp
  simp only [if_neg hnd] at hp
  exact (indexOfFrom_some_spec hay nd _ _ _ hp).2.2

/-- A match of a non-empty needle at `p` fits inside the haystack. -/
theorem matchesAt_add_le (hay nd : List Nat) (p : Nat) (hnd : nd ≠ [])
    (hm : matchesAt nd (hay.drop p)) : p + nd.length ≤ hay.length := by
  unfold matchesAt at hm
  have hlen := congrArg List.length hm
  simp [List.length_take, List.length_drop] at hlen
  have : nd.length ≠ 0 := by
    intro h0
    exact hnd (List.length_eq_zero.mp h0)
  omega

/-- A failed linear scan means no match anywhere in its window. -/
theorem indexOfFrom_none_spec (hay nd : List Nat) :
    ∀ k i, indexOfFrom hay nd k i = none →
      ∀ j, i ≤ j → j < i + k → ¬ matchesAt nd (hay.drop j) := by
  intro k
  induction k with
  | zero => intro i _ j _ hj; omega
  | succ k ih =>
    intro i hi j hij hj
    by_cases hm : matchesAt nd (hay.drop i)
    · simp [indexOfFrom, hm] at hi
    · simp only [indexOfFrom, if_neg hm] at hi
      rcases Nat.eq_or_lt_of_le hij with h | h
      · subst h; exact fun hc => hm hc
      · exact ih (i + 1) hi j h (by omega)

/-- A successful linear scan returns the leftmost match of its window. -/
theorem indexOfFrom_min (hay nd : List Nat) :
    ∀ k i p, indexOfFrom hay nd k i = some p →
      ∀ j, i ≤ j → j < p → ¬ matchesAt nd (hay.drop j) := by
  intro k
  induction k with
  | zero => intro i p hp; simp [indexOfFrom] at hp
  | succ k ih =>
    intro i p hp j hij hjp
    by_cases hm : matchesAt nd (hay.drop i)
    · simp only [indexOfFrom, if_pos hm, Option.some.injEq] at hp
      omega
    · simp only [indexOfFrom, if_neg hm] at hp
      rcases Nat.eq_or_lt_of_le hij with h | h
      · subst h; exact fun hc => hm hc
      · exact ih (i + 1) p hp j h hjp

/-- Branch equation of the match-position scan: a failed search ends it. -/
theorem matchPositionsFrom_eq_none (s t : List Nat) (start : Nat)
    (h : index_of s t start = none) : matchPositionsFrom s t start = [] := by
  rw [matchPositionsFrom.eq_def]
  split
  · rfl
  · rename_i j heq
    rw [h] at heq
    cases heq

/-- Branch equation of the match-position scan: a found position is
recorded and the scan restarts past it. -/
theorem matchPositionsFrom_eq_some (s t : List Nat) (start p : Nat)
    (h : index_of s t start = some p) :
    matchPositionsFrom s t start =
      p :: matchPositionsFrom s t (p + max 1 t.length) := by
  rw [matchPositionsFrom.eq_def]
  split
  · rename_i heq
    rw [h] at heq
    cases heq
  · rename_i j heq
    rw [h] at heq
    injection heq with hj
    subst hj
    rfl

/-- Branch equation of the split loop: a failed search appends the tail. -/
theorem splitLoop_eq_none (s sep : List Nat) (hsep : sep ≠ []) (lim : Nat)
    (acc : List (List Nat)) (i : Nat) (h : index_of s sep i = none) :
    splitLoop s sep hsep lim acc i = acc ++ [s.drop i] := by
  rw [splitLoop.eq_def]
  split
  · rfl
  · rename_i j heq
    rw [h] at heq
    cases heq

/-- Branch equation of the split loop: a found separator emits the gap
and either stops at the limit or continues past the separator. -/
theorem splitLoop_eq_some (s sep : List Nat) (hsep : sep ≠ []) (lim : Nat)
    (acc : List (List Nat)) (i j : Nat) (h : index_of s sep i = some j) :
    splitLoop s sep hsep lim acc i =
      (if (acc ++ [sliceCU s i j]).length = lim then acc ++ [sliceCU s i j]
      else splitLoop s sep hsep lim (acc ++ [sliceCU s i j])
        (j + sep.length)) := by
  rw [splitLoop.eq_def]
  split
  · rename_i heq
    rw [h] at heq
    cases heq
  · rename_i j2 heq
    rw [h] at heq
    injection heq with hj
    subst hj
    rfl

/-- A non-empty needle cannot match at or beyond the end of the haystack. -/
theorem not_matchesAt_of_ge (hay nd : List Nat) (j : Nat) (hnd : nd ≠ [])
    (hj : hay.length ≤ j) : ¬ matchesAt nd (hay.drop j) := by
  intro hm
  have hdrop : hay.drop j = [] := List.drop_eq_nil_of_le hj
  rw [hdrop] at hm
  unfold matchesAt at hm
  simp at hm
  exact hnd hm

/-- The linear scan is complete on its window: a match at `p ≥ i` with no
earlier match in `[i, p)` is found, provided the window reaches `p`. -/
theorem indexOfFrom_complete (hay nd : List Nat) :
    ∀ k i p, i ≤ p → p < i + k → matchesAt nd (hay.drop p) →
      (∀ j, i ≤ j → j < p → ¬ matchesAt nd (hay.drop j)) →
      indexOfFrom hay nd k i = some p := by
  intro k
  induction k with
  | zero => intro i p _ h; omega
  | succ k ih =>
    intro i p hip hpk hm hmin
    by_cases hi : matchesAt nd (hay.drop i)
    · have hieq : i = p := by
        by_contra hne
        exact hmin i (Nat.le_refl i) (by omega) hi
      subst hieq
      simp [indexOfFrom, hi]
    · have hip' : i ≠ p := fun h => hi (h ▸ hm)
      simp only [indexOfFrom, if_neg hi]
      exact ih (i + 1) p (by omega) (by omega) hm
        (fun j h1 h2 => hmin j (by omega) h2)

/-- Characterization of a successful search for a non-empty needle:
the result is exactly the leftmost matching position `≥ from_`. -/
theorem index_of_some_iff (hay nd : List Nat) (from_ p : Nat) (hnd : nd ≠ []) :
    index_of hay nd from_ = some p ↔
      from_ ≤ p ∧ matchesAt nd (hay.drop p) ∧
        ∀ j, from_ ≤ j → j < p → ¬ matchesAt nd (hay.drop j) := by
  constructor
  · intro hp
    refine ⟨(index_of_some_bounds hay nd from_ p hp).1,
      index_of_some_match hay nd from_ p hnd hp, ?_⟩
    unfold index_of at hp
    simp only [if_neg hnd] at hp
    exact indexOfFrom_min hay nd _ from_ p hp
  · rintro ⟨h1, h2, h3⟩
    unfold index_of
    simp only [if_neg hnd]
    have hple : p + nd.length ≤ hay.length := matchesAt_add_le hay nd p hnd h2
    have hndpos : nd.length ≠ 0 := fun h0 => hnd (List.length_eq_zero.mp h0)
    exact indexOfFrom_complete hay nd _ from_ p h1 (by omega) h2 h3

/-- Characterization of a failed search for a non-empty needle: no
matching position at or after `from_` exists. -/
theorem index_of_none_iff (hay nd : List Nat) (from_ : Nat) (hnd : nd ≠ []) :
    index_of hay nd from_ = none ↔
      ∀ j, from_ ≤ j → ¬ matchesAt nd (hay.drop j) := by
  constructor
  · intro hp j hj
    by_cases hjl : j < hay.length
    · unfold index_of at hp
      simp only [if_neg hnd] at hp
      exact indexOfFrom_none_spec hay nd _ from_ hp j hj (by omega)
    · exact not_matchesAt_of_ge hay nd j hnd (by omega)
  · intro hall
    cases hp : index_of hay nd from_ with
    | none => rfl
    | some p =>
      obtain ⟨h1, h2, _⟩ := (index_of_some_iff hay nd from_ p hnd).mp hp
      exact absurd h2 (hall p h1)

/-! ## Substitution-engine equations -/

/-- An exhausted template produces the empty result. -/
theorem substLoop_nil (matched str : List Nat) (position : Nat)
    (captures : List (Option (List Nat)))
    (nc : Option (List Nat → Except Unit (Option (List Nat)))) :
    substLoop matched str position captures nc [] = .ok [] := by
  rw [substLoop.eq_def]

/-- A non-`$` token is copied through re-encoded. -/
theorem substLoop_literal (matched str : List Nat) (position : Nat)
    (captures : List (Option (List Nat)))
    (nc : Option (List Nat → Except Unit (Option (List Nat))))
    (first : CodePoint) (rest : List CodePoint)
    (h : first ≠ CodePoint.unicode 0x24) :
    substLoop matched str position captures nc (first :: rest) =
      Except.map (fun r => first.encodeUtf16 ++ r)
        (substLoop matched str position captures nc rest) := by
  rw [substLoop.eq_def]
  simp [h]

/-- The `$nn` arm: with two decimal digits after `$`, the two-digit rule
fires, consumes both digits, and the scan continues after them. -/
theorem substLoop_two_digits (matched str : List Nat) (position : Nat)
    (captures : List (Option (List Nat)))
    (nc : Option (List Nat → Except Unit (Option (List Nat))))
    (a b : Nat) (rest : List CodePoint)
    (ha : 0x30 ≤ a ∧ a ≤ 0x39) (hb : 0x30 ≤ b ∧ b ≤ 0x39) :
    substLoop matched str position captures nc
        (CodePoint.unicode 0x24 :: CodePoint.unicode a ::
          CodePoint.unicode b :: rest) =
      Except.map (fun r =>
          (if 10 * (a - 0x30) + (b - 0x30) = 0 ∨
              10 * (a - 0x30) + (b - 0x30) > captures.length then
            [0x24, a, b]
          else captureText captures (10 * (a - 0x30) + (b - 0x30))) ++ r)
        (substLoop matched str position captures nc rest) := by
  rw [substLoop.eq_def]
  have h1 : ¬ CodePoint.unicode a = CodePoint.unicode 0x24 := by simp; omega
  have h2 : ¬ CodePoint.unicode a = CodePoint.unicode 0x26 := by simp; omega
  have h3 : ¬ CodePoint.unicode a = CodePoint.unicode 0x60 := by simp; omega
  have h4 : ¬ CodePoint.unicode a = CodePoint.unicode 0x27 := by simp; omega
  have hda : isDigitTok (CodePoint.unicode a) := by simp [isDigitTok]; omega
  have hdb : isDigitTok (CodePoint.unicode b) := by simp [isDigitTok]; omega
  simp [h1, h2, h3, h4, hda, hdb, digitVal, tokUnit]

/-- The `$<` arm with undefined named captures: exactly `$<` is emitted and
the following text is not consumed. -/
theorem substLoop_lt_undefined (matched str : List Nat) (position : Nat)
    (captures : List (Option (List Nat))) (rest : List CodePoint) :
    substLoop matched str position captures none
        (CodePoint.unicode 0x24 :: CodePoint.unicode 0x3C :: rest) =
      Except.map (fun r => 0x24 :: 0x3C :: r)
        (substLoop matched str position captures none rest) := by
  rw [substLoop.eq_def]
  simp +decide

/-- The group-name scan consumes everything when no `>` is present. -/
theorem scanGroupName_no_gt (l : List CodePoint)
    (h : ∀ t ∈ l, t ≠ CodePoint.unicode 0x3E) :
    scanGroupName l = (encodeToks l, false, []) := by
  induction l with
  | nil => simp [scanGroupName, encodeToks]
  | cons t rest ih =>
    have ht := h t (List.mem_cons_self t rest)
    simp only [scanGroupName, if_neg ht, List.append_eq]
    rw [ih (fun x hx => h x (List.mem_cons_of_mem t hx))]
    simp [encodeToks]

/-- The group-name scan stops at the first `>` and returns the re-encoded
enclosed text together with the remainder after the `>`. -/
theorem scanGroupName_found (pre post : List CodePoint)
    (h : ∀ t ∈ pre, t ≠ CodePoint.unicode 0x3E) :
    scanGroupName (pre ++ CodePoint.unicode 0x3E :: post) =
      (encodeToks pre, true, post) := by
  induction pre with
  | nil => simp [scanGroupName, encodeToks]
  | cons t rest ih =>
    have ht := h t (List.mem_cons_self t rest)
    simp only [List.cons_append, scanGroupName, if_neg ht, List.append_eq]
    rw [ih (fun x hx => h x (List.mem_cons_of_mem t hx))]
    simp [encodeToks]

/-- The `$<` arm with a present named-capture object and a terminated
name: the enclosed name is looked up; an undefined capture yields nothing,
a defined one its stringification, and lookup/coercion failures propagate. -/
theorem substLoop_lt_found (matched str : List Nat) (position : Nat)
    (captures : List (Option (List Nat)))
    (f : List Nat → Except Unit (Option (List Nat)))
    (pre post : List CodePoint)
    (h : ∀ t ∈ pre, t ≠ CodePoint.unicode 0x3E) :
    substLoop matched str position captures (some f)
        (CodePoint.unicode 0x24 :: CodePoint.unicode 0x3C ::
          (pre ++ CodePoint.unicode 0x3E :: post)) =
      (match f (encodeToks pre) with
      | .error e => .error e
      | .ok none => substLoop matched str position captures (some f) post
      | .ok (some v) =>
        Except.map (fun r => v ++ r)
          (substLoop matched str position captures (some f) post)) := by
  rw [substLoop.eq_def]
  simp only [scanGroupName_found pre post h]
  simp +decide

/-- The `$<` arm with a present named-capture object and no closing `>`:
`$<` and the scanned text are emitted verbatim and the scan ends. -/
theorem substLoop_lt_unterminated (matched str : List Nat) (position : Nat)
    (captures : List (Option (List Nat)))
    (f : List Nat → Except Unit (Option (List Nat)))
    (rest : List CodePoint)
    (h : ∀ t ∈ rest, t ≠ CodePoint.unicode 0x3E) :
    substLoop matched str position captures (some f)
        (CodePoint.unicode 0x24 :: CodePoint.unicode 0x3C :: rest) =
      .ok (0x24 :: 0x3C :: encodeToks rest) := by
  rw [substLoop.eq_def]
  simp only [scanGroupName_no_gt rest h]
  simp +decide [substLoop_nil, Except.map]

/-- With undefined named captures the substitution scan cannot fail: the
only fallible operations (the named-capture lookup and the coercion of a
looked-up value) sit behind the `some` branch of the named-captures
argument. -/
theorem substLoop_none_ok (matched str : List Nat) (position : Nat)
    (captures : List (Option (List Nat))) :
    ∀ toks, ∃ r, substLoop matched str position captures none toks = .ok r := by
  intro toks
  induction toks using substLoop.induct matched str position captures none
  case case1 => exact ⟨[], by rw [substLoop.eq_def]⟩
  all_goals try (exfalso; simp_all; done)
  all_goals
    rename_i ih
    obtain ⟨r1, hr1⟩ := ih
    rw [substLoop.eq_def]
    simp_all [Except.map]

/-- The `expect`-style unwrap used by `replace_all` agrees with
`get_substitution`; its dead `error` branch is never taken. -/
theorem getSubstitutionExpect_eq (matched str : List Nat) (position : Nat)
    (template : List Nat) :
    get_substitution matched str position [] none template =
      .ok (getSubstitutionExpect matched str position template) := by
  obtain ⟨r, hr⟩ := substLoop_none_ok matched str position [] (to_code_points template)
  unfold getSubstitutionExpect get_substitution
  rw [hr]

/-! ## Claim theorems -/

/-- C1: in the substitution engine, `$` followed by two decimal digits of
two-digit value `nn` against `m = captures.length` captures behaves as a
single decision: if `nn = 0` or `nn > m`, the three literal code units
`$`, first digit, second digit are emitted and both digits are consumed
(the scan continues after them, so the one-digit rule cannot fire on the
second digit); otherwise `captures[nn-1]` is emitted, an absent capture
contributing the empty string.  The boundary templates `$09`, `$10`,
`$99` and `$15` against three captures `a`, `b`, `c` all emit literally,
`$02` emits the second capture, and `$10` against ten undefined captures
emits the empty string. -/
theorem C1_two_digit_rule :
    (∀ (matched str : List Nat) (position : Nat)
        (captures : List (Option (List Nat)))
        (nc : Option (List Nat → Except Unit (Option (List Nat))))
        (a b : Nat) (rest : List CodePoint),
      0x30 ≤ a → a ≤ 0x39 → 0x30 ≤ b → b ≤ 0x39 →
      (10 * (a - 0x30) + (b - 0x30) = 0 ∨
          10 * (a - 0x30) + (b - 0x30) > captures.length →
        substLoop matched str position captures nc
            (CodePoint.unicode 0x24 :: CodePoint.unicode a ::
              CodePoint.unicode b :: rest) =
          Except.map (fun r => 0x24 :: a :: b :: r)
            (substLoop matched str position captures nc rest)) ∧
      (1 ≤ 10 * (a - 0x30) + (b - 0x30) ∧
          10 * (a - 0x30) + (b - 0x30) ≤ captures.length →
        substLoop matched str position captures nc
            (CodePoint.unicode 0x24 :: CodePoint.unicode a ::
              CodePoint.unicode b :: rest) =
          Except.map
            (fun r => captureText captures (10 * (a - 0x30) + (b - 0x30)) ++ r)
            (substLoop matched str position captures nc rest))) ∧
    get_substitution [] [] 0 [some [0x61], some [0x62], some [0x63]] none
        [0x24, 0x30, 0x39] = .ok [0x24, 0x30, 0x39] ∧
    get_substitution [] [] 0 [some [0x61], some [0x62], some [0x63]] none
        [0x24, 0x31, 0x30] = .ok [0x24, 0x31, 0x30] ∧
    get_substitution [] [] 0 [some [0x61], some [0x62], some [0x63]] none
        [0x24, 0x39, 0x39] = .ok [0x24, 0x39, 0x39] ∧
    get_substitution [] [] 0 [some [0x61], some [0x62], some [0x63]] none
        [0x24, 0x31, 0x35] = .ok [0x24, 0x31, 0x35] ∧
    get_substitution [] [] 0 [some [0x61], some [0x62], some [0x63]] none
        [0x24, 0x30, 0x32] = .ok [0x62] ∧
    get_substitution [] [] 0 (List.replicate 10 none) none
        [0x24, 0x31, 0x30] = .ok [] := by
  refine ⟨?_, ?_, ?_, ?_, ?_, ?_, ?_⟩
  · intro matched str position captures nc a b rest ha1 ha2 hb1 hb2
    constructor
    · intro hout
      rw [substLoop_two_digits matched str position captures nc a b rest
          ⟨ha1, ha2⟩ ⟨hb1, hb2⟩]
      have hc : a - 0x30 = 0 ∧ b - 0x30 = 0 ∨
          captures.length < 10 * (a - 0x30) + (b - 0x30) := by omega
      simp [hc]
    · intro hin
      rw [substLoop_two_digits matched str position captures nc a b rest
          ⟨ha1, ha2⟩ ⟨hb1, hb2⟩]
      have hc : ¬ (a - 0x30 = 0 ∧ b - 0x30 = 0 ∨
          captures.length < 10 * (a - 0x30) + (b - 0x30)) := by omega
      simp [hc]
  all_goals
    simp +decide [get_substitution, substLoop, to_code_points, captureText,
      Except.map]

/-- Witness for C1 at a concrete input: `$15` against three captures is
out of range and emits the literal text, with both digits consumed. -/
theorem C1_two_digit_rule_witness :
    substLoop [] [] 0 [some [0x61], some [0x62], some [0x63]] none
        (CodePoint.unicode 0x24 :: CodePoint.unicode 0x31 ::
          CodePoint.unicode 0x35 :: []) =
      Except.map (fun r => 0x24 :: 0x31 :: 0x35 :: r)
        (substLoop [] [] 0 [some [0x61], some [0x62], some [0x63]] none []) :=
  (C1_two_digit_rule.1 [] [] 0 [some [0x61], some [0x62], some [0x63]] none
      0x31 0x35 [] (by decide) (by decide) (by decide) (by decide)).1
    (by decide)

/-- C10: with undefined named captures, `get_substitution` is infallible
for every matched string, source string, in-range position, capture list
of string-or-undefined captures and template — the only fallible
operations (named-capture lookup and coercion of its result) are
unreachable.  This is the fact `replace_all` relies on when it unwraps the
result with `expect`. -/
theorem C10_get_substitution_infallible (matched str : List Nat)
    (position : Nat) (captures : List (Option (List Nat)))
    (replacement : List Nat)
    (hpos : position + matched.length ≤ str.length) :
    ∃ r, get_substitution matched str position captures none replacement =
      .ok r := by
  unfold get_substitution
  exact substLoop_none_ok matched str position captures
    (to_code_points replacement)

/-- Witness for C10 at a concrete input with every escape kind present. -/
theorem C10_get_substitution_infallible_witness :
    ∃ r, get_substitution [0x61, 0x62] [0x78, 0x61, 0x62, 0x79] 1
        [some [0x43], none] none
        [0x24, 0x24, 0x24, 0x26, 0x24, 0x60, 0x24, 0x27, 0x24, 0x31,
          0x24, 0x30, 0x32, 0x24, 0x3C, 0x61, 0x3E, 0x24] = .ok r :=
  C10_get_substitution_infallible [0x61, 0x62] [0x78, 0x61, 0x62, 0x79] 1
    [some [0x43], none]
    [0x24, 0x24, 0x24, 0x26, 0x24, 0x60, 0x24, 0x27, 0x24, 0x31,
      0x24, 0x30, 0x32, 0x24, 0x3C, 0x61, 0x3E, 0x24] (by decide)

/-- C6: the `$<` escape of the substitution engine.  With undefined named
captures, exactly the two code units `$<` are emitted and the following
name text is left unconsumed (the scan continues on it normally).  With a
present named-capture object and no `>` in the rest of the template, `$<`
followed by the scanned-but-unterminated text is emitted verbatim and the
scan ends.  With a terminating `>`, the enclosed name is looked up: an
undefined capture yields the empty string, a defined one its
stringification, and lookup or coercion failures propagate. -/
theorem C6_named_capture_rule :
    (∀ (matched str : List Nat) (position : Nat)
        (captures : List (Option (List Nat))) (rest : List CodePoint),
      substLoop matched str position captures none
          (CodePoint.unicode 0x24 :: CodePoint.unicode 0x3C :: rest) =
        Except.map (fun r => 0x24 :: 0x3C :: r)
          (substLoop matched str position captures none rest)) ∧
    (∀ (matched str : List Nat) (position : Nat)
        (captures : List (Option (List Nat)))
        (f : List Nat → Except Unit (Option (List Nat)))
        (rest : List CodePoint),
      (∀ t ∈ rest, t ≠ CodePoint.unicode 0x3E) →
      substLoop matched str position captures (some f)
          (CodePoint.unicode 0x24 :: CodePoint.unicode 0x3C :: rest) =
        .ok (0x24 :: 0x3C :: encodeToks rest)) ∧
    (∀ (matched str : List Nat) (position : Nat)
        (captures : List (Option (List Nat)))
        (f : List Nat → Except Unit (Option (List Nat)))
        (pre post : List CodePoint),
      (∀ t ∈ pre, t ≠ CodePoint.unicode 0x3E) →
      substLoop matched str position captures (some f)
          (CodePoint.unicode 0x24 :: CodePoint.unicode 0x3C ::
            (pre ++ CodePoint.unicode 0x3E :: post)) =
        (match f (encodeToks pre) with
        | .error e => .error e
        | .ok none => substLoop matched str position captures (some f) post
        | .ok (some v) =>
          Except.map (fun r => v ++ r)
            (substLoop matched str position captures (some f) post))) := by
  refine ⟨?_, ?_, ?_⟩
  · intro matched str position captures rest
    exact substLoop_lt_undefined matched str position captures rest
  · intro matched str position captures f rest h
    exact substLoop_lt_unterminated matched str position captures f rest h
  · intro matched str position captures f pre post h
    exact substLoop_lt_found matched str position captures f pre post h

/-- Witness for C6 at a concrete input: an unterminated `$<ab` with a
present named-capture object is emitted verbatim. -/
theorem C6_named_capture_rule_witness :
    substLoop [] [] 0 [] (some (fun _ => .ok none))
        (CodePoint.unicode 0x24 :: CodePoint.unicode 0x3C ::
          [CodePoint.unicode 0x61, CodePoint.unicode 0x62]) =
      .ok [0x24, 0x3C, 0x61, 0x62] := by
  have h := C6_named_capture_rule.2.1 [] [] 0 [] (fun _ => .ok none)
    [CodePoint.unicode 0x61, CodePoint.unicode 0x62] (by decide)
  simpa [encodeToks, CodePoint.encodeUtf16, encodeScalar] using h

/-- C3 counterexample: the claim demands that an empty needle always
return the start offset clamped to the haystack length, so for
`index_of("hello", "", 6)` it demands `some 5`; the search actually
returns `none` once the offset passes the end (which is what terminates
the scan loop of `replace_all`). -/
theorem C3_counterexample :
    index_of [0x68, 0x65, 0x6C, 0x6C, 0x6F] [] 6 = none ∧
    ¬ index_of [0x68, 0x65, 0x6C, 0x6C, 0x6F] [] 6 =
        some (min 6 [0x68, 0x65, 0x6C, 0x6C, 0x6F].length) := by
  exact ⟨by decide, by decide⟩

/-- C3 (amended): for a non-empty needle, `index_of` returns exactly the
leftmost matching index `≥ from` and `none` when no match at or after
`from` exists; for an empty needle it returns `from` itself when
`from ≤ len` and `none` otherwise (no clamping), so
`index_of("hello", "", 2) = some 2`. -/
theorem C3_index_of_characterization :
    (∀ (hay nd : List Nat) (from_ p : Nat), nd ≠ [] →
      (index_of hay nd from_ = some p ↔
        from_ ≤ p ∧ matchesAt nd (hay.drop p) ∧
          ∀ j, from_ ≤ j → j < p → ¬ matchesAt nd (hay.drop j))) ∧
    (∀ (hay nd : List Nat) (from_ : Nat), nd ≠ [] →
      (index_of hay nd from_ = none ↔
        ∀ j, from_ ≤ j → ¬ matchesAt nd (hay.drop j))) ∧
    (∀ (hay : List Nat) (from_ : Nat),
      index_of hay [] from_ =
        if from_ ≤ hay.length then some from_ else none) ∧
    index_of [0x68, 0x65, 0x6C, 0x6C, 0x6F] [] 2 = some 2 := by
  refine ⟨?_, ?_, ?_, by decide⟩
  · exact fun hay nd from_ p h => index_of_some_iff hay nd from_ p h
  · exact fun hay nd from_ h => index_of_none_iff hay nd from_ h
  · intro hay from_
    unfold index_of
    simp

/-- Witness for C3's amended characterization at a concrete input: in
`"aba"` the needle `"a"` searched from offset 1 is found at index 2. -/
theorem C3_index_of_characterization_witness :
    index_of [0x61, 0x62, 0x61] [0x61] 1 = some 2 :=
  (C3_index_of_characterization.1 [0x61, 0x62, 0x61] [0x61] 1 2
      (by decide)).mpr
    ⟨by decide, by decide, by
      intro j h1 h2
      have hj : j = 1 := by omega
      subst hj
      decide⟩

/-- C7: single `replace` with a plain-string pattern.  If the search text
occurs nowhere in the source, the result is the source unchanged; if `p`
is its leftmost occurrence, the result is
`source[0..p] ++ replacement ++ source[p + len(search)..]` with the
replacement computed by the callback (functional) or by the substitution
engine with an empty capture list (textual).  An empty search text
matches at 0 and the same splice applies. -/
theorem C7_single_replace :
    (∀ (this_str search_str : List Nat) (rv : ReplaceValue),
      search_str ≠ [] →
      (∀ i, ¬ matchesAt search_str (this_str.drop i)) →
      replace this_str search_str rv = .ok this_str) ∧
    (∀ (this_str search_str : List Nat) (rv : ReplaceValue) (p : Nat),
      search_str ≠ [] →
      matchesAt search_str (this_str.drop p) →
      (∀ j, j < p → ¬ matchesAt search_str (this_str.drop j)) →
      replace this_str search_str rv =
        Except.map (fun replacement =>
            this_str.take p ++ replacement ++
              this_str.drop (p + search_str.length))
          (computeReplacement rv search_str this_str p)) ∧
    (∀ (this_str : List Nat) (rv : ReplaceValue),
      replace this_str [] rv =
        Except.map (fun replacement => replacement ++ this_str)
          (computeReplacement rv [] this_str 0)) := by
  refine ⟨?_, ?_, ?_⟩
  · intro this_str search_str rv hne hocc
    unfold replace
    rw [(index_of_none_iff this_str search_str 0 hne).mpr (fun j _ => hocc j)]
  · intro this_str search_str rv p hne hm hmin
    unfold replace
    rw [(index_of_some_iff this_str search_str 0 p hne).mpr
      ⟨Nat.zero_le p, hm, fun j _ hj => hmin j hj⟩]
  · intro this_str rv
    unfold replace
    have h0 : index_of this_str [] 0 = some 0 := by
      unfold index_of
      simp
    rw [h0]
    simp

/-- Witness for C7 at a concrete input: replacing `"b"` in `"abc"` with
the literal text `"-"` yields `"a-c"`. -/
theorem C7_single_replace_witness :
    replace [0x61, 0x62, 0x63] [0x62] (ReplaceValue.textual [0x2D]) =
      .ok [0x61, 0x2D, 0x63] := by
  have h := C7_single_replace.2.1 [0x61, 0x62, 0x63] [0x62]
    (ReplaceValue.textual [0x2D]) 1 (by decide) (by decide)
    (by
      intro j hj
      have hj0 : j = 0 := by omega
      subst hj0
      decide)
  rw [h]
  simp +decide [computeReplacement, get_substitution, substLoop,
    to_code_points, Except.map]

/-- C8: splitting by a non-empty separator that occurs nowhere in the
source (with a non-zero limit, which includes the unlimited
`2^32 - 1`) yields exactly the one-element list `[source]`, including for
an empty source. -/
theorem C8_split_absent_separator (s sep : List Nat) (lim : Nat)
    (hsep : sep ≠ []) (hlim : 1 ≤ lim)
    (hocc : ∀ i, ¬ matchesAt sep (s.drop i)) :
    split s (some sep) lim = [s] := by
  unfold split
  rw [if_neg (by omega)]
  simp only
  rw [dif_neg hsep]
  by_cases hs : s = []
  · subst hs
    simp
  · rw [if_neg hs]
    rw [splitLoop_eq_none s sep hsep lim [] 0
      ((index_of_none_iff s sep 0 hsep).mpr (fun j _ => hocc j))]
    simp

/-- Witness for C8 at a concrete input: `"a"` split by `"b"` with an
effectively unlimited limit is `["a"]`. -/
theorem C8_split_absent_separator_witness :
    split [0x61] (some [0x62]) 4294967295 = [[0x61]] :=
  C8_split_absent_separator [0x61] [0x62] 4294967295 (by decide) (by decide)
    (by
      intro i
      cases i with
      | zero => decide
      | succ j => simp [matchesAt])

/-- The first found match position is at or after the search start. -/
theorem matchPositionsFrom_head_ge (s t : List Nat) (start p : Nat)
    (l : List Nat) (h : matchPositionsFrom s t start = p :: l) : start ≤ p := by
  cases hp : index_of s t start with
  | none => rw [matchPositionsFrom_eq_none s t start hp] at h; cases h
  | some q =>
    rw [matchPositionsFrom_eq_some s t start q hp] at h
    injection h with h1 _
    subst h1
    exact (index_of_some_bounds s t start q hp).1

/-- Consecutive match positions are separated by at least the advance
`max 1 (length of the search text)`. -/
theorem matchPositionsFrom_chain (s t : List Nat) (start : Nat) :
    List.Chain' (fun p q => p + max 1 t.length ≤ q)
      (matchPositionsFrom s t start) := by
  induction start using matchPositionsFrom.induct s t with
  | case1 start hp =>
    rw [matchPositionsFrom_eq_none s t start hp]
    exact List.chain'_nil
  | case2 start p hp hb ih =>
    rw [matchPositionsFrom_eq_some s t start p hp]
    rw [List.chain'_cons']
    refine ⟨?_, ih⟩
    intro b hb
    cases hl : matchPositionsFrom s t (p + max 1 t.length) with
    | nil => rw [hl] at hb; simp at hb
    | cons q l =>
      rw [hl] at hb
      simp at hb
      subst hb
      exact matchPositionsFrom_head_ge s t _ q l hl

/-- C2: global replace of the empty search string in `"ab"` by `"-"`
yields `"-a-b-"`; and for every source and search text, the positions
computed by the repeated-search loop (which is total: each successive
search starts at the previous match plus `max 1 (search length)`) are
strictly advancing by at least that amount, hence the matches are
non-overlapping. -/
theorem C2_replace_all_empty_search :
    replace_all [0x61, 0x62] [] [0x2D] = [0x2D, 0x61, 0x2D, 0x62, 0x2D] ∧
    (∀ (s t : List Nat),
      List.Chain' (fun p q => p + max 1 t.length ≤ q) (matchPositions s t)) ∧
    (∀ (s t : List Nat),
      List.Chain' (fun p q => p + t.length ≤ q) (matchPositions s t)) := by
  refine ⟨?_, ?_, ?_⟩
  · simp +decide [replace_all, matchPositions, matchPositionsFrom,
      replaceAllGo, getSubstitutionExpect, get_substitution, substLoop,
      to_code_points, sliceCU, index_of, CodePoint.encodeUtf16,
      encodeScalar, Except.map]
  · exact fun s t => matchPositionsFrom_chain s t 0
  · intro s t
    refine List.Chain'.imp ?_ (matchPositionsFrom_chain s t 0)
    intro a b hab
    have h := le_max_right 1 t.length
    omega

/-- C9: `normalize` raises the invalid-normalization-form range error
exactly when a form argument is present and is none of `"NFC"`, `"NFD"`,
`"NFKC"`, `"NFKD"`; an unspecified (undefined) form selects NFC and
succeeds. -/
theorem C9_normalize_form_errors :
    (∀ (fs : Normalization → List Nat → List Nat) (s : List Nat),
      normalize fs s none = .ok (caseMapWith (fs .nfc) s)) ∧
    (∀ (fs : Normalization → List Nat → List Nat) (s t : List Nat),
      normalize fs s (some t) = .error () ↔
        (t ≠ formName .nfc ∧ t ≠ formName .nfd ∧
          t ≠ formName .nfkc ∧ t ≠ formName .nfkd)) := by
  constructor
  · intro fs s
    simp [normalize, parseNormalizationForm]
  · intro fs s t
    unfold normalize parseNormalizationForm
    by_cases h1 : t = formName .nfc
    · simp [h1]
    · by_cases h2 : t = formName .nfd
      · simp +decide [h1, h2]
      · by_cases h3 : t = formName .nfkc
        · simp +decide [h1, h2, h3]
        · by_cases h4 : t = formName .nfkd
          · simp +decide [h1, h2, h3, h4]
          · simp [h1, h2, h3, h4]

/-! ## Decode/encode round trip and stream invariants (for C4 and C5) -/

/-- Decoding peels one encoded scalar off the front: UTF-16 encoding of a
scalar value followed by anything decodes to that scalar's token followed
by the decode of the rest. -/
theorem decode_encodeScalar_append (c : Nat) (rest : List Nat)
    (hc : isScalarValue c) :
    to_code_points (encodeScalar c ++ rest) =
      CodePoint.unicode c :: to_code_points rest := by
  obtain ⟨hlt, hns⟩ := hc
  unfold isSurrogate at hns
  by_cases hb : c < 0x10000
  · have h1 : ¬ isHighSurrogate c := by unfold isHighSurrogate; omega
    have h2 : ¬ isLowSurrogate c := by unfold isLowSurrogate; omega
    have henc : encodeScalar c = [c] := by simp [encodeScalar, hb]
    rw [henc, List.singleton_append, to_code_points.eq_def]
    simp [h1, h2]
  · have hdivlt : (c - 0x10000) / 0x400 < 0x400 := by omega
    have hmodlt : (c - 0x10000) % 0x400 < 0x400 := Nat.mod_lt _ (by omega)
    have h1 : isHighSurrogate (0xD800 + (c - 0x10000) / 0x400) := by
      unfold isHighSurrogate; omega
    have h2 : isLowSurrogate (0xDC00 + (c - 0x10000) % 0x400) := by
      unfold isLowSurrogate; omega
    have hval : 0x10000 + (0xD800 + (c - 0x10000) / 0x400 - 0xD800) * 0x400 +
        (0xDC00 + (c - 0x10000) % 0x400 - 0xDC00) = c := by
      have hdm := Nat.div_add_mod (c - 0x10000) 0x400
      omega
    simp only [encodeScalar, if_neg hb, List.cons_append, List.nil_append,
      to_code_points, if_pos h1, if_pos h2, hval]

/-- Decoding peels a whole encoded scalar run off the front. -/
theorem decode_encodeScalars_append (cs : List Nat) (rest : List Nat)
    (hcs : scalarRun cs) :
    to_code_points (encodeScalars cs ++ rest) =
      cs.map CodePoint.unicode ++ to_code_points rest := by
  induction cs with
  | nil => simp [encodeScalars]
  | cons c cs ih =>
    have hc := hcs c (List.mem_cons_self c cs)
    have hcs2 : scalarRun cs := fun x hx => hcs x (List.mem_cons_of_mem c hx)
    simp only [encodeScalars, List.flatMap_cons, List.append_assoc]
    rw [decode_encodeScalar_append c _ hc]
    simp only [List.map_cons, List.cons_append]
    rw [← encodeScalars]
    rw [ih hcs2]

/-- A surrogate unit decodes to an unpaired-surrogate token provided, when
it is a high surrogate, the successor unit (if any) is not a low
surrogate. -/
theorem decode_cons_surr (u : Nat) (X : List Nat) (hu : isSurrogate u)
    (hX : isHighSurrogate u →
      X = [] ∨ ∃ v t, X = v :: t ∧ ¬ isLowSurrogate v) :
    to_code_points (u :: X) =
      CodePoint.unpairedSurrogate u :: to_code_points X := by
  by_cases hh : isHighSurrogate u
  · rcases hX hh with h | ⟨v, t, hvt, hv⟩
    · subst h
      rw [to_code_points.eq_def]
      simp [hh, to_code_points]
    · subst hvt
      rw [to_code_points.eq_def]
      simp [hh, hv]
  · have hl : isLowSurrogate u := by
      unfold isSurrogate at hu
      unfold isHighSurrogate at hh
      unfold isLowSurrogate
      omega
    rw [to_code_points.eq_def]
    simp [hh, hl]

/-- An encoded non-empty scalar run starts with a unit that is not a low
surrogate (a BMP scalar unit or the high half of a pair). -/
theorem encodeScalars_append_shape (cs : List Nat) (Y : List Nat)
    (hcs : scalarRun cs) (hne : cs ≠ []) :
    ∃ v t, encodeScalars cs ++ Y = v :: t ∧ ¬ isLowSurrogate v := by
  cases cs with
  | nil => exact absurd rfl hne
  | cons c cs2 =>
    obtain ⟨hlt, hns⟩ := hcs c (List.mem_cons_self c cs2)
    unfold isSurrogate at hns
    by_cases hb : c < 0x10000
    · refine ⟨c, encodeScalars cs2 ++ Y, ?_, by unfold isLowSurrogate; omega⟩
      simp [encodeScalars, encodeScalar, hb]
    · refine ⟨0xD800 + (c - 0x10000) / 0x400,
        (0xDC00 + (c - 0x10000) % 0x400) :: (encodeScalars cs2 ++ Y), ?_, ?_⟩
      · simp [encodeScalars, encodeScalar, hb]
      · have : (c - 0x10000) / 0x400 < 0x400 := by omega
        unfold isLowSurrogate
        omega

/-- A decode beginning with an unpaired-surrogate token began with that
unit. -/
theorem to_code_points_head_surr (l : List Nat) (u2 : Nat)
    (t : List CodePoint)
    (h : to_code_points l = CodePoint.unpairedSurrogate u2 :: t) :
    ∃ l2, l = u2 :: l2 := by
  cases l with
  | nil => simp [to_code_points] at h
  | cons a l2 =>
    rw [to_code_points.eq_def] at h
    by_cases hh : isHighSurrogate a
    · cases l2 with
      | nil =>
        simp [hh] at h
        exact ⟨[], by rw [h.1]⟩
      | cons b l3 =>
        by_cases hlb : isLowSurrogate b
        · simp [hh, hlb] at h
        · simp [hh, hlb] at h
          exact ⟨b :: l3, by rw [h.1]⟩
    · by_cases hl : isLowSurrogate a
      · simp [hh, hl] at h
        exact ⟨l2, by rw [h.1]⟩
      · simp [hh, hl] at h

/-- Every decoded stream satisfies the stream invariant, provided the
input units are 16-bit. -/
theorem okStream_decode (s : List Nat) (hu : ∀ u ∈ s, u < 0x10000) :
    okStream (to_code_points s) := by
  induction s using to_code_points.induct with
  | case1 => simp [to_code_points, okStream]
  | case2 u hhu v rest2 hlv ih =>
    rw [to_code_points.eq_def]
    simp only [if_pos hhu, if_pos hlv]
    have hrest : ∀ x ∈ rest2, x < 0x10000 := fun x hx =>
      hu x (List.mem_cons_of_mem u (List.mem_cons_of_mem v hx))
    refine ⟨?_, ih hrest⟩
    unfold isHighSurrogate at hhu
    unfold isLowSurrogate at hlv
    unfold isScalarValue isSurrogate
    omega
  | case3 u hhu v rest2 hnlv ih =>
    rw [to_code_points.eq_def]
    simp only [if_pos hhu, if_neg hnlv]
    have hrest : ∀ x ∈ v :: rest2, x < 0x10000 := fun x hx =>
      hu x (List.mem_cons_of_mem u hx)
    refine ⟨?_, ?_, ih hrest⟩
    · unfold isSurrogate
      unfold isHighSurrogate at hhu
      omega
    · intro u2 rest3 hdec hpair
      obtain ⟨l2, hl2⟩ := to_code_points_head_surr (v :: rest2) u2 rest3 hdec
      have hv : v = u2 := (List.cons.injEq _ _ _ _ ▸ hl2).1
      exact hnlv (hv ▸ hpair.2)
  | case4 u hhu =>
    rw [to_code_points.eq_def]
    simp only [if_pos hhu]
    refine ⟨?_, ?_, trivial⟩
    · unfold isSurrogate
      unfold isHighSurrogate at hhu
      omega
    · intro u2 rest2 hdec
      simp at hdec
  | case5 u rest hnh hl ih =>
    rw [to_code_points.eq_def]
    simp only [if_neg hnh, if_pos hl]
    have hrest : ∀ x ∈ rest, x < 0x10000 := fun x hx =>
      hu x (List.mem_cons_of_mem u hx)
    refine ⟨?_, ?_, ih hrest⟩
    · unfold isSurrogate
      unfold isLowSurrogate at hl
      omega
    · intro u2 rest2 hdec hpair
      unfold isHighSurrogate at hpair
      unfold isLowSurrogate at hl
      omega
  | case6 u rest hnh hnl ih =>
    rw [to_code_points.eq_def]
    simp only [if_neg hnh, if_neg hnl]
    have hrest : ∀ x ∈ rest, x < 0x10000 := fun x hx =>
      hu x (List.mem_cons_of_mem u hx)
    refine ⟨?_, ih hrest⟩
    have hub := hu u (List.mem_cons_self u rest)
    unfold isHighSurrogate at hnh
    unfold isLowSurrogate at hnl
    unfold isScalarValue isSurrogate
    omega

/-- A decomposition with an empty first run and a first group `(u, _)`
comes from a stream beginning with the surrogate token `u`. -/
theorem toRuns_empty_first (T : List CodePoint) (u2 : Nat) (r2 : List Nat)
    (ps2 : List (Nat × List Nat)) (h1 : (toRuns T).1 = [])
    (h2 : (toRuns T).2 = (u2, r2) :: ps2) :
    ∃ T2, T = CodePoint.unpairedSurrogate u2 :: T2 := by
  cases T with
  | nil => simp [toRuns] at h2
  | cons t T2 =>
    cases t with
    | unicode c => simp [toRuns] at h1
    | unpairedSurrogate v =>
      simp [toRuns] at h2
      exact ⟨T2, by rw [h2.1.1]⟩

/-- The run/surrogate decomposition of a stream satisfying the stream
invariant satisfies the group invariant. -/
theorem toRuns_ok (T : List CodePoint) (h : okStream T) :
    scalarRun (toRuns T).1 ∧ okPs (toRuns T).2 := by
  induction T with
  | nil =>
    constructor
    · intro c hc; simp [toRuns] at hc
    · simp [toRuns, okPs]
  | cons t T2 ih =>
    cases t with
    | unicode c =>
      obtain ⟨hc, hT2⟩ := h
      obtain ⟨ih1, ih2⟩ := ih hT2
      constructor
      · intro x hx
        simp [toRuns] at hx
        rcases hx with hx | hx
        · subst hx; exact hc
        · exact ih1 x hx
      · simpa [toRuns] using ih2
    | unpairedSurrogate u =>
      obtain ⟨hsu, hadj, hT2⟩ := h
      obtain ⟨ih1, ih2⟩ := ih hT2
      simp only [toRuns]
      refine ⟨fun c hc => by simp at hc, hsu, ih1, ?_, ih2⟩
      intro u2 r2 rest2 hps hr1 hpair
      obtain ⟨T3, hT3⟩ := toRuns_empty_first T2 u2 r2 rest2 hr1 hps
      exact hadj u2 T3 hT3 hpair

/-- Decoding the surrogate/converted-run tail of the shared loop's output
recovers the surrogate tokens and the converted runs. -/
theorem decode_interTail (f : List Nat → List Nat)
    (hscalar : ∀ xs c, c ∈ f xs → isScalarValue c)
    (hne : ∀ xs, scalarRun xs → xs ≠ [] → f xs ≠ []) :
    ∀ ps, okPs ps →
      to_code_points (ps.flatMap (fun p => p.1 :: encodeScalars (f p.2))) =
        ps.flatMap (fun p =>
          CodePoint.unpairedSurrogate p.1 :: (f p.2).map CodePoint.unicode) := by
  intro ps
  induction ps with
  | nil => simp [to_code_points]
  | cons pr ps2 ih =>
    obtain ⟨u, r⟩ := pr
    intro hok
    obtain ⟨hsu, hsr, hadj, hok2⟩ := hok
    simp only [List.flatMap_cons, List.cons_append]
    have hfr : scalarRun (f r) := fun c hc => hscalar r c hc
    by_cases hfe : f r = []
    · have hr : r = [] := by
        by_contra hrne
        exact hne r hsr hrne hfe
      rw [hfe]
      rw [show encodeScalars ([] : List Nat) = [] from rfl]
      simp only [List.nil_append, List.map_nil]
      cases ps2 with
      | nil =>
        simp only [List.flatMap_nil]
        rw [decode_cons_surr u [] hsu (fun _ => Or.inl rfl)]
        simp [to_code_points]
      | cons pr2 ps3 =>
        obtain ⟨u2, r2⟩ := pr2
        have hadj2 : ¬(isHighSurrogate u ∧ isLowSurrogate u2) :=
          hadj u2 r2 ps3 rfl hr
        have hX : isHighSurrogate u →
            ((u2, r2) :: ps3).flatMap (fun p => p.1 :: encodeScalars (f p.2)) = [] ∨
            ∃ v t, ((u2, r2) :: ps3).flatMap
                (fun p => p.1 :: encodeScalars (f p.2)) = v :: t ∧
              ¬ isLowSurrogate v := by
          intro hhu
          right
          refine ⟨u2, encodeScalars (f r2) ++
            ps3.flatMap (fun p => p.1 :: encodeScalars (f p.2)), by simp, ?_⟩
          intro hlu2
          exact hadj2 ⟨hhu, hlu2⟩
        rw [decode_cons_surr u _ hsu hX]
        rw [ih hok2]
    · obtain ⟨v, t, hvt, hnv⟩ := encodeScalars_append_shape (f r)
        (ps2.flatMap (fun p => p.1 :: encodeScalars (f p.2))) hfr hfe
      rw [decode_cons_surr u _ hsu (fun _ => Or.inr ⟨v, t, hvt, hnv⟩)]
      rw [decode_encodeScalars_append (f r) _ hfr]
      rw [ih hok2]

/-- Decoding the whole output of the shared loop gives back the converted
runs interleaved with the original unpaired surrogates. -/
theorem decode_interleave (f : List Nat → List Nat) (r : List Nat)
    (ps : List (Nat × List Nat)) (hok : okPs ps)
    (hscalar : ∀ xs c, c ∈ f xs → isScalarValue c)
    (hne : ∀ xs, scalarRun xs → xs ≠ [] → f xs ≠ []) :
    to_code_points (interleave f r ps) =
      runsToToks (f r) (ps.map (fun p => (p.1, f p.2))) := by
  unfold interleave runsToToks
  rw [decode_encodeScalars_append (f r) _ (fun c hc => hscalar r c hc)]
  rw [decode_interTail f hscalar hne ps hok]
  congr 1
  rw [List.flatMap_map]

/-- Prepending scalar tokens extends the first run of the decomposition. -/
theorem toRuns_map_unicode_append (cs : List Nat) (T : List CodePoint) :
    toRuns (cs.map CodePoint.unicode ++ T) =
      (cs ++ (toRuns T).1, (toRuns T).2) := by
  induction cs with
  | nil => simp
  | cons c cs ih => simp [toRuns, ih]

/-- `toRuns` inverts `runsToToks`. -/
theorem toRuns_runsToToks (r : List Nat) (ps : List (Nat × List Nat)) :
    toRuns (runsToToks r ps) = (r, ps) := by
  unfold runsToToks
  rw [toRuns_map_unicode_append]
  have key : ∀ ps2 : List (Nat × List Nat),
      toRuns (ps2.flatMap (fun p =>
        CodePoint.unpairedSurrogate p.1 :: p.2.map CodePoint.unicode)) =
      ([], ps2) := by
    intro ps2
    induction ps2 with
    | nil => simp [toRuns]
    | cons pr ps3 ih =>
      obtain ⟨u, rr⟩ := pr
      simp only [List.flatMap_cons, List.cons_append, toRuns, List.append_eq,
        ← List.flatMap_def]
      rw [toRuns_map_unicode_append, ih]
      simp
  rw [key]
  simp

/-- The unpaired-surrogate tokens of a stream are the surrogates of its
decomposition, in order. -/
theorem filterMap_surr_toRuns (T : List CodePoint) :
    T.filterMap (fun t =>
      match t with
      | CodePoint.unpairedSurrogate u => some u
      | CodePoint.unicode _ => none) = (toRuns T).2.map Prod.fst := by
  induction T with
  | nil => simp [toRuns]
  | cons t T2 ih =>
    cases t with
    | unicode c => simp [toRuns, ih]
    | unpairedSurrogate u => simp [toRuns, ih]

/-- Idempotence of the shared run/surrogate loop, given an idempotent,
scalar-valued, nonemptiness-preserving per-run conversion. -/
theorem caseMapWith_idem (f : List Nat → List Nat) (s : List Nat)
    (hu : ∀ u ∈ s, u < 0x10000)
    (hscalar : ∀ xs c, c ∈ f xs → isScalarValue c)
    (hne : ∀ xs, scalarRun xs → xs ≠ [] → f xs ≠ [])
    (hidem : ∀ xs, scalarRun xs → f (f xs) = f xs) :
    caseMapWith f (caseMapWith f s) = caseMapWith f s := by
  obtain ⟨hr, hps⟩ := toRuns_ok _ (okStream_decode s hu)
  have hdec : to_code_points (caseMapWith f s) =
      runsToToks (f (toRuns (to_code_points s)).1)
        ((toRuns (to_code_points s)).2.map (fun p => (p.1, f p.2))) :=
    decode_interleave f _ _ hps hscalar hne
  show interleave f (toRuns (to_code_points (caseMapWith f s))).1
      (toRuns (to_code_points (caseMapWith f s))).2 = caseMapWith f s
  rw [hdec, toRuns_runsToToks]
  show encodeScalars (f (f (toRuns (to_code_points s)).1)) ++
      ((toRuns (to_code_points s)).2.map (fun p => (p.1, f p.2))).flatMap
        (fun p => p.1 :: encodeScalars (f p.2)) =
    caseMapWith f s
  rw [hidem _ hr]
  have key : ∀ ps : List (Nat × List Nat), okPs ps →
      (ps.map (fun p => (p.1, f p.2))).flatMap
          (fun p => p.1 :: encodeScalars (f p.2)) =
        ps.flatMap (fun p => p.1 :: encodeScalars (f p.2)) := by
    intro ps
    induction ps with
    | nil => simp
    | cons pr ps2 ih =>
      obtain ⟨u, rr⟩ := pr
      intro hok
      obtain ⟨_, hsr, _, hok2⟩ := hok
      simp only [List.map_cons, List.flatMap_cons, ih hok2, hidem rr hsr]
  rw [key _ hps]
  rfl

/-- C4: the case-mapping loop shared by `to_lowercase` and `to_uppercase`
preserves the unpaired surrogates of its input exactly — same values,
same count, same relative order — for every per-run conversion that (like
the platform's Default Case Conversion) produces scalar values and maps
non-empty runs to non-empty output; in particular `to_upper` of
`[0x0041, 0xD800]` is `[0x0041, 0xD800]` unchanged. -/
theorem C4_case_mapping_preserves_surrogates :
    (∀ (f : List Nat → List Nat) (s : List Nat),
      (∀ u ∈ s, u < 0x10000) →
      (∀ xs c, c ∈ f xs → isScalarValue c) →
      (∀ xs, scalarRun xs → xs ≠ [] → f xs ≠ []) →
      unpairedOf (to_uppercase f s) = unpairedOf s ∧
        unpairedOf (to_lowercase f s) = unpairedOf s) ∧
    to_uppercase asciiUpperRun [0x41, 0xD800] = [0x41, 0xD800] := by
  constructor
  · intro f s hu hscalar hne
    obtain ⟨hr, hps⟩ := toRuns_ok _ (okStream_decode s hu)
    have key : unpairedOf (caseMapWith f s) = unpairedOf s := by
      unfold unpairedOf
      rw [show to_code_points (caseMapWith f s) =
          runsToToks (f (toRuns (to_code_points s)).1)
            ((toRuns (to_code_points s)).2.map (fun p => (p.1, f p.2))) from
        decode_interleave f _ _ hps hscalar hne]
      rw [filterMap_surr_toRuns, toRuns_runsToToks,
        filterMap_surr_toRuns (to_code_points s)]
      simp
    exact ⟨key, key⟩
  · decide

/-- Witness for C4 at a concrete input: a constant-`A` conversion (which
is scalar-valued and nonemptiness-preserving) preserves the lone
surrogate of `[0xD800, 0x61]`. -/
theorem C4_case_mapping_preserves_surrogates_witness :
    unpairedOf (to_uppercase (fun xs => xs.map (fun _ => 0x41))
        [0xD800, 0x61]) = unpairedOf [0xD800, 0x61] :=
  (C4_case_mapping_preserves_surrogates.1 (fun xs => xs.map (fun _ => 0x41))
      [0xD800, 0x61] (by decide)
      (by
        intro xs c hc
        simp only [List.mem_map] at hc
        obtain ⟨x, hx, hxc⟩ := hc
        subst hxc
        decide)
      (by
        intro xs hsr hne
        simp [hne])).1

/-- C5: normalization is idempotent on every code-unit sequence,
including sequences with unpaired surrogates: re-normalizing the output
of `normalize` with the same form returns it unchanged, for every per-run
normalizer that (like the four Unicode normal forms, UAX#15) is
idempotent on scalar runs, scalar-valued, and maps non-empty runs to
non-empty output. -/
theorem C5_normalize_idempotent (fs : Normalization → List Nat → List Nat)
    (F : Normalization) (s t : List Nat)
    (hu : ∀ u ∈ s, u < 0x10000)
    (hscalar : ∀ xs c, c ∈ fs F xs → isScalarValue c)
    (hne : ∀ xs, scalarRun xs → xs ≠ [] → fs F xs ≠ [])
    (hidem : ∀ xs, scalarRun xs → fs F (fs F xs) = fs F xs)
    (hnorm : normalize fs s (some (formName F)) = .ok t) :
    normalize fs t (some (formName F)) = .ok t := by
  have hparse : parseNormalizationForm (some (formName F)) = .ok F := by
    cases F <;> rfl
  unfold normalize at hnorm ⊢
  rw [hparse] at hnorm ⊢
  have hnorm2 : (Except.ok (caseMapWith (fs F) s) : Except Unit (List Nat)) =
      Except.ok t := hnorm
  have ht : caseMapWith (fs F) s = t := by injection hnorm2
  subst ht
  show (Except.ok (caseMapWith (fs F) (caseMapWith (fs F) s)) :
      Except Unit (List Nat)) = Except.ok (caseMapWith (fs F) s)
  rw [caseMapWith_idem (fs F) s hu hscalar hne hidem]

/-- Witness for C5 at a concrete input: the constant-`A` per-run
normalizer is idempotent, and re-normalizing the normalization of
`[0xD800, 0x61]` (which is `[0xD800, 0x41]`) leaves it unchanged. -/
theorem C5_normalize_idempotent_witness :
    normalize (fun _ xs => xs.map (fun _ => 0x41)) [0xD800, 0x41]
      (some (formName Normalization.nfc)) = .ok [0xD800, 0x41] :=
  C5_normalize_idempotent (fun _ xs => xs.map (fun _ => 0x41))
    Normalization.nfc [0xD800, 0x61] [0xD800, 0x41] (by decide)
    (by
      intro xs c hc
      simp only [List.mem_map] at hc
      obtain ⟨x, hx, hxc⟩ := hc
      subst hxc
      decide)
    (by
      intro xs hsr hne
      simp [hne])
    (by
      intro xs hsr
      simp)
    (by rfl)

end BoaString
